import Mathlib

/-!
Verification of the Mouse persistence and caching substrate.

Shallow embedding of the relevant parts of the source:

* `src/cache/usage.rs` — the process-global cache byte counter
  (`usage`, `add_usage`, `sub_usage`), modelled with explicit word-wrapping
  arithmetic (`% 2 ^ w`).
* `src/kvs/leveldb/mod.rs` — the two-store key/value layer: the shared
  `WriteBatch` (`put`, `flush`, `clear`), `PutQuery::new` / `wait`,
  and `FetchQuery::do_fetch` / `wait`.  The underlying `mouse_leveldb`
  engine (an external crate) is modelled as a total map from keys to byte
  strings where a missing key reads as the empty byte string, and a batch
  write either applies all its entries in order or is rejected by an
  injected error outcome.
* `src/rdb/sqlite3/resources.rs` — the `resources` table
  (`create_table` schema with its CHECK constraint and cleanup trigger,
  `update_balance`, `fetch`), with the SQL statements' semantics modelled
  over an association-list table.
* `src/rdb/sqlite3/acids.rs` — the `acids` table (`accept_to_mempool`,
  `mempool_to_chain`), again with the SQL statements modelled over a list
  of rows.
* `src/cache/mod.rs` — the LRU cache front end (`not_found` and the
  eviction loop); the backing `LruHashSet` lives in the external
  `mouse_containers` crate and is modelled from the specification.
-/

/-! ## Usage counter (src/cache/usage.rs) -/

/-- Machine word used by the counter: values wrap modulo `2 ^ w`. -/
def wrapWord (w x : Nat) : Nat := x % 2 ^ w

/-- Embeds `add_usage` from `src/cache/usage.rs`.
`USAGE.fetch_add(byte_size, Relaxed)` returns the old counter value and
stores the wrapped sum; the function then returns that old value plus
`byte_size` (wrapping).  Result: `(new counter value, returned value)`. -/
def add_usage (w u byte_size : Nat) : Nat × Nat :=
  let old := u
  let counter := wrapWord w (u + byte_size)
  (counter, wrapWord w (old + byte_size))

/-- Embeds `sub_usage` from `src/cache/usage.rs`.
`USAGE.fetch_sub(byte_size, Relaxed)` returns the old counter value and
stores the wrapped difference; the function then returns
`fetch_sub(..) + byte_size`, i.e. the old value plus `byte_size`
(wrapping).  Result: `(new counter value, returned value)`. -/
def sub_usage (w u byte_size : Nat) : Nat × Nat :=
  let old := u
  let counter := wrapWord w (u + (2 ^ w - wrapWord w byte_size))
  (counter, wrapWord w (old + byte_size))

/-! ## Key/value store (src/kvs/leveldb/mod.rs) -/

/-- Keys of the key/value stores (raw `Id` bytes in the source). -/
abbrev KvsId := Nat

/-- Raw byte strings. -/
abbrev Bytes := List Nat

/-- `PutResult` from `src/kvs/leveldb/mod.rs`: the state of a shared
completion cell. -/
inductive PutResult where
  | NotYet : PutResult
  | Succeeded : PutResult
  | Error : Nat → PutResult
deriving DecidableEq, Repr

/-- `WriteBatch` from `src/kvs/leveldb/mod.rs`.  `result` is the index of
the current shared completion cell (the `Asc<Mutex<PutResult>>`); the two
entry lists model the pending `mouse_leveldb::WriteBatch`es. -/
structure WriteBatch where
  result : Nat
  intrinsic : List (KvsId × Bytes)
  extrinsic : List (KvsId × Bytes)
  len_ : Nat
deriving DecidableEq, Repr

/-- The KVS module state: the two stores, the configuration value
`max_write_queries`, the shared `write_batch`, and the pool of completion
cells (`cells i` is the state of cell `i`; `nextCell` is the next unused
index). -/
structure KvsEnvironment where
  dbIntrinsic : KvsId → Bytes
  dbExtrinsic : KvsId → Bytes
  max_write_queries : Nat
  write_batch : WriteBatch
  cells : Nat → PutResult
  nextCell : Nat

/-- `WriteBatch::put`: append the non-empty streams to the pending batch,
bump `len_` once if anything changed, and return the current completion
cell (as its index). -/
def WriteBatch.put (b : WriteBatch) (id : KvsId) (intr extr : Bytes) :
    WriteBatch × Nat :=
  let intrinsic1 := if intr.isEmpty then b.intrinsic else b.intrinsic ++ [(id, intr)]
  let extrinsic1 := if extr.isEmpty then b.extrinsic else b.extrinsic ++ [(id, extr)]
  let len1 := if intr.isEmpty && extr.isEmpty then b.len_ else b.len_ + 1
  ({ b with intrinsic := intrinsic1, extrinsic := extrinsic1, len_ := len1 }, b.result)

/-- Applying a `mouse_leveldb::WriteBatch` to a store: entries are applied
in order, later entries overriding earlier ones for the same key. -/
def ldbApply (db : KvsId → Bytes) (entries : List (KvsId × Bytes)) : KvsId → Bytes :=
  entries.foldl (fun d e => fun k => if k = e.1 then e.2 else d k) db

/-- Pointwise update of the completion-cell pool. -/
def setCell (cells : Nat → PutResult) (i : Nat) (r : PutResult) : Nat → PutResult :=
  fun j => if j = i then r else cells j

/-- `WriteBatch::clear`: install a fresh `NotYet` completion cell (index
`fresh`), drop both pending batches and reset the length counter. -/
def WriteBatch.clear (fresh : Nat) : WriteBatch :=
  { result := fresh, intrinsic := [], extrinsic := [], len_ := 0 }

/-- `WriteBatch::flush`: write the extrinsic batch, then the intrinsic
batch; on the first error set the shared completion cell to `Error` and
clear; on success set it to `Succeeded` and clear.  The outcome of each
underlying `mouse_leveldb::write` call is injected as `eo` (extrinsic
write) and `io` (intrinsic write): `none` means the engine succeeded and
the batch's entries were applied, `some e` means it failed with error
`e` (the store is then left as it was). -/
def kvsFlush (eo io : Option Nat) (env : KvsEnvironment) : KvsEnvironment :=
  match eo with
  | some e =>
      { env with
          cells := setCell env.cells env.write_batch.result (.Error e),
          write_batch := WriteBatch.clear env.nextCell,
          nextCell := env.nextCell + 1 }
  | none =>
      let dbE := ldbApply env.dbExtrinsic env.write_batch.extrinsic
      match io with
      | some e =>
          { env with
              dbExtrinsic := dbE,
              cells := setCell env.cells env.write_batch.result (.Error e),
              write_batch := WriteBatch.clear env.nextCell,
              nextCell := env.nextCell + 1 }
      | none =>
          { env with
              dbExtrinsic := dbE,
              dbIntrinsic := ldbApply env.dbIntrinsic env.write_batch.intrinsic,
              cells := setCell env.cells env.write_batch.result .Succeeded,
              write_batch := WriteBatch.clear env.nextCell,
              nextCell := env.nextCell + 1 }

/-- `PutQuery::new`: under the batch mutex, append to the shared batch;
if the resulting batch length is at most `max_write_queries`, flush.
Returns the new module state and the query's completion-cell index. -/
def PutQuery.new (id : KvsId) (intr extr : Bytes) (eo io : Option Nat)
    (env : KvsEnvironment) : KvsEnvironment × Nat :=
  let p := env.write_batch.put id intr extr
  let env1 := { env with write_batch := p.1 }
  if p.1.len_ ≤ env.max_write_queries then (kvsFlush eo io env1, p.2) else (env1, p.2)

/-- `WriteQuery::is_finished` for a `PutQuery` holding cell `cell`. -/
def PutQuery.is_finished (env : KvsEnvironment) (cell : Nat) : Bool :=
  match env.cells cell with
  | .NotYet => false
  | _ => true

/-- `PutQuery::wait`: if the cell is still pending, force a flush of the
current batch, then read the cell.  `none` models the `panic!` branch
(the cell can never still be pending there in a reachable state). -/
def PutQuery.wait (cell : Nat) (eo io : Option Nat) (env : KvsEnvironment) :
    KvsEnvironment × Option (Except Nat Unit) :=
  let env1 := if PutQuery.is_finished env cell then env else kvsFlush eo io env
  match env1.cells cell with
  | .NotYet => (env1, none)
  | .Succeeded => (env1, some (.ok ()))
  | .Error e => (env1, some (.error e))

/-- `FetchQuery::do_fetch`: read the intrinsic store; if the value is
empty report "not found" without reading the extrinsic store; otherwise
read the extrinsic store and return the row. -/
def FetchQuery.do_fetch (env : KvsEnvironment) (id : KvsId) : Option (Bytes × Bytes) :=
  let intrinsic := env.dbIntrinsic id
  if intrinsic.isEmpty then none
  else some (intrinsic, env.dbExtrinsic id)

/-- `ReadQuery::wait` for a fresh `FetchQuery` (the `mouse_leveldb::get`
calls are modelled as always succeeding). -/
def FetchQuery.wait (env : KvsEnvironment) (id : KvsId) :
    Except Nat (Option (Bytes × Bytes)) :=
  .ok (FetchQuery.do_fetch env id)

/-- A fresh KVS module state: empty stores, empty batch whose completion
cell is cell `0`, every cell pending. -/
def kvsInit (maxq : Nat) : KvsEnvironment :=
  { dbIntrinsic := fun _ => []
    dbExtrinsic := fun _ => []
    max_write_queries := maxq
    write_batch := { result := 0, intrinsic := [], extrinsic := [], len_ := 0 }
    cells := fun _ => .NotYet
    nextCell := 1 }

/-! ## RDB resources table (src/rdb/sqlite3/resources.rs) -/

/-- `ResourceId`: the `(owner, asset_type)` blob pair (the table's
primary key). -/
abbrev ResourceId := List Nat × List Nat

/-- `AssetValue`: a signed 64-bit integer in the source. -/
abbrev AssetValue := Int

/-- The `resources` table: one row per `ResourceId` (primary key), with
its `value` column.  Tables reachable through the API have pairwise
distinct keys and strictly positive values (`validTable`). -/
abbrev ResourcesTable := List (ResourceId × AssetValue)

/-- The SQLite extended error code `SQLITE_CONSTRAINT_CHECK` used by
`update_balance`. -/
def SQLITE_CONSTRAINT_CHECK : Nat := 275

/-- `SELECT value FROM resources WHERE owner = ?1 AND asset_type = ?2`. -/
def tblLookup (t : ResourcesTable) (r : ResourceId) : Option AssetValue :=
  match t with
  | [] => none
  | p :: rest => if p.1 = r then some p.2 else tblLookup rest r

/-- Overwrite the `value` column of the row keyed `r` (every occurrence;
keys are unique in valid tables). -/
def tblSet (t : ResourcesTable) (r : ResourceId) (v : AssetValue) : ResourcesTable :=
  t.map fun p => if p.1 = r then (p.1, v) else p

/-- `DELETE FROM resources WHERE owner = .. AND asset_type = ..`
(the cleanup trigger's body). -/
def tblErase (t : ResourcesTable) (r : ResourceId) : ResourcesTable :=
  t.filter fun p => p.1 ≠ r

/-- One `UPDATE resources SET value = value + ?3 WHERE owner = ?1 AND
asset_type = ?2` statement, together with the table's CHECK constraint
(`value >= 0`) and the `cleanup_resources` AFTER UPDATE trigger
(`WHEN NEW.value = 0` delete the row).  Returns the updated table and
`last_changes` (the number of rows the UPDATE matched), or the CHECK
error. -/
def sqlUpdateAdd (t : ResourcesTable) (r : ResourceId) (v : AssetValue) :
    Except Nat (ResourcesTable × Nat) :=
  match tblLookup t r with
  | none => .ok (t, 0)
  | some w =>
      if w + v < 0 then .error SQLITE_CONSTRAINT_CHECK
      else if w + v = 0 then .ok (tblErase t r, 1)
      else .ok (tblSet t r (w + v), 1)

/-- One `INSERT INTO resources (owner, asset_type, value) VALUES (..)
ON CONFLICT (owner, asset_type) DO UPDATE set value = value + ?3`
statement, with the CHECK constraint and the trigger (the trigger fires
only on the UPDATE conflict path, not on a plain INSERT). -/
def sqlUpsertAdd (t : ResourcesTable) (r : ResourceId) (v : AssetValue) :
    Except Nat ResourcesTable :=
  match tblLookup t r with
  | none => if v < 0 then .error SQLITE_CONSTRAINT_CHECK else .ok (t ++ [(r, v)])
  | some w =>
      if w + v < 0 then .error SQLITE_CONSTRAINT_CHECK
      else if w + v = 0 then .ok (tblErase t r)
      else .ok (tblSet t r (w + v))

/-- The first loop of `update_balance` ("Depositting"): for each balance
with a strictly positive value, run the upsert; non-positive values are
skipped. -/
def depositList (balances : List (ResourceId × AssetValue)) (t : ResourcesTable) :
    Except Nat ResourcesTable :=
  match balances with
  | [] => .ok t
  | b :: rest =>
      if b.2 ≤ 0 then depositList rest t
      else do
        let t1 ← sqlUpsertAdd t b.1 b.2
        depositList rest t1

/-- The second loop of `update_balance` ("Withdrawing"): for each balance
with a strictly negative value, run the UPDATE; if it matched no row
(`last_changes == 0`), fail with `SQLITE_CONSTRAINT_CHECK`; non-negative
values are skipped. -/
def withdrawList (balances : List (ResourceId × AssetValue)) (t : ResourcesTable) :
    Except Nat ResourcesTable :=
  match balances with
  | [] => .ok t
  | b :: rest =>
      if 0 ≤ b.2 then withdrawList rest t
      else do
        let p ← sqlUpdateAdd t b.1 b.2
        if p.2 = 0 then .error SQLITE_CONSTRAINT_CHECK
        else withdrawList rest p.1

/-- `update_balance` from `src/rdb/sqlite3/resources.rs`: apply every
positive delta of `balances` (as upserts), then every negative delta (as
checked updates), over the same input list. -/
def update_balance (balances : List (ResourceId × AssetValue)) (t : ResourcesTable) :
    Except Nat ResourcesTable := do
  let t1 ← depositList balances t
  withdrawList balances t1

/-- `fetch` from `src/rdb/sqlite3/resources.rs`: for each requested id,
report its row's value when a row exists. -/
def resourcesFetch (resource_ids : List ResourceId) (t : ResourcesTable) :
    List (ResourceId × AssetValue) :=
  match resource_ids with
  | [] => []
  | r :: rest =>
      match tblLookup t r with
      | none => resourcesFetch rest t
      | some v => (r, v) :: resourcesFetch rest t

/-- Tables reachable through the `resources` API: pairwise distinct
primary keys, and every `value` strictly positive (the CHECK constraint
keeps values nonnegative and the cleanup trigger removes zero rows). -/
def validTable (t : ResourcesTable) : Prop :=
  t.Pairwise (fun p q => p.1 ≠ q.1) ∧ ∀ p ∈ t, 0 < p.2

/-- The balance the table records for `r`, reading a missing row as 0. -/
def balOf (t : ResourcesTable) (r : ResourceId) : AssetValue :=
  (tblLookup t r).getD 0

/-- Sum of all deltas of `balances` aimed at `r`. -/
def sumDeltas (balances : List (ResourceId × AssetValue)) (r : ResourceId) : Int :=
  (balances.filter (fun b => b.1 = r)).foldr (fun b s => b.2 + s) 0

/-- Sum of the strictly positive deltas of `balances` aimed at `r` (the
deposit phase's contribution). -/
def posSum (balances : List (ResourceId × AssetValue)) (r : ResourceId) : Int :=
  (balances.filter (fun b => b.1 = r ∧ 0 < b.2)).foldr (fun b s => b.2 + s) 0

/-- Sum of the strictly negative deltas of `balances` aimed at `r` (the
withdraw phase's contribution). -/
def negSum (balances : List (ResourceId × AssetValue)) (r : ResourceId) : Int :=
  (balances.filter (fun b => b.1 = r ∧ b.2 < 0)).foldr (fun b s => b.2 + s) 0

/-! ## RDB acids table (src/rdb/sqlite3/acids.rs) -/

/-- Raw `Id` blobs keying the `acids` table. -/
abbrev AcidId := Nat

/-- One row of the `acids` table: `(seq, id, chain_height)`;
`chain_height = none` (SQL NULL) means the acid is in mempool. -/
abbrev AcidRow := Nat × AcidId × Option Int

/-- The `acids` table: its rows plus the next `seq` the INTEGER PRIMARY
KEY would assign. -/
structure AcidsTable where
  rows : List AcidRow
  nextSeq : Nat
deriving DecidableEq, Repr

/-- `INSERT INTO acids (id) VALUES (?1) ON CONFLICT DO NOTHING` for a
single id: insert a fresh row with NULL `chain_height` unless a row with
this id exists. -/
def acidsInsertIgnore (t : AcidsTable) (id : AcidId) : AcidsTable :=
  if t.rows.any fun row => row.2.1 = id then t
  else { rows := t.rows ++ [(t.nextSeq, id, none)], nextSeq := t.nextSeq + 1 }

/-- `accept_to_mempool` from `src/rdb/sqlite3/acids.rs`: run the
insert-or-ignore statement for each id in order. -/
def accept_to_mempool (acids : List AcidId) (t : AcidsTable) : AcidsTable :=
  acids.foldl acidsInsertIgnore t

/-- One `UPDATE acids SET chain_height = ?1 WHERE id = ?2 AND
chain_height IS NULL` statement: the updated table and `last_changes`. -/
def acidsPromoteOne (height : Int) (t : AcidsTable) (id : AcidId) : AcidsTable × Nat :=
  ({ t with
      rows := t.rows.map fun row =>
        if row.2.1 = id ∧ row.2.2 = none then (row.1, row.2.1, some height) else row },
   t.rows.countP fun row => decide (row.2.1 = id ∧ row.2.2 = none))

/-- `mempool_to_chain` from `src/rdb/sqlite3/acids.rs`: run the UPDATE
for each id in order, summing `last_changes`. -/
def mempool_to_chain (height : Int) (acids : List AcidId) (t : AcidsTable) :
    AcidsTable × Nat :=
  acids.foldl
    (fun s id =>
      let p := acidsPromoteOne height s.1 id
      (p.1, s.2 + p.2))
    (t, 0)

/-! ## LRU cache front end (src/cache/mod.rs) -/

/-- A cached value: either the `NotFound` sentinel or a real Acid
payload (opaque here). -/
inductive CacheVal where
  | notFoundSentinel : CacheVal
  | acid : Nat → CacheVal
deriving DecidableEq, Repr

/-- One cache entry: `(id, value, accounted byte size)`. -/
abbrev CacheEntry := AcidId × CacheVal × Nat

/-- Modelled from the spec: the `LruHashSet` of the external
`mouse_containers` crate together with the `mouse_cache_alloc` byte
counter, as seen by `src/cache/mod.rs`.  `entries` is kept in recency
order, most recently used first; `usage` is `cache_using_byte_size()`. -/
structure CacheEnvironment where
  size_soft_limit : Nat
  entries : List CacheEntry
  usage : Nat
deriving DecidableEq, Repr

/-- Modelled from the spec: `LruHashSet::expire` evicts the least
recently used entry if any and returns whether one was evicted; the
entry's accounted bytes are released. -/
def cacheExpire (c : CacheEnvironment) : CacheEnvironment × Bool :=
  match c.entries.getLast? with
  | none => (c, false)
  | some e => ({ c with entries := c.entries.dropLast, usage := c.usage - e.2.2 }, true)

/-- The eviction loop of `src/cache/mod.rs`: while the usage exceeds the
soft limit, evict the LRU entry, stopping when eviction fails.  The fuel
argument bounds the iterations; `expire` fails exactly when the cache is
empty, so `c.entries.length` fuel is enough. -/
def evictLoopFuel : Nat → CacheEnvironment → CacheEnvironment
  | 0, c => c
  | fuel + 1, c =>
      if c.size_soft_limit < c.usage then
        let p := cacheExpire c
        if p.2 then evictLoopFuel fuel p.1 else c
      else c

/-- The eviction loop, with enough fuel to run to completion. -/
def evictLoop (c : CacheEnvironment) : CacheEnvironment :=
  evictLoopFuel c.entries.length c

/-- `not_found` from `src/cache/mod.rs`: build a `NotFound(id)` sentinel
(whose accounted allocation size is `size`) and insert it through
`LruHashSet::insert_with` with a no-op merge closure; when an entry with
this id already exists nothing changes (the LRU order is not touched),
otherwise the sentinel is inserted as the MRU entry and the eviction
loop runs. -/
def not_found (id : AcidId) (size : Nat) (c : CacheEnvironment) : CacheEnvironment :=
  if c.entries.any fun e => e.1 = id then c
  else evictLoop
    { c with entries := (id, CacheVal.notFoundSentinel, size) :: c.entries,
             usage := c.usage + size }

/-! ## Theorems -/

/-- C1: the claim says `add_usage n` sets the counter to `u + n` and
returns `u + n`, and `sub_usage n` sets the counter to `u - n` and
returns the post-update value `u - n` (wrapping modulo `2 ^ w`).
The `add_usage` half holds, but `sub_usage` as written computes
`USAGE.fetch_sub(byte_size) + byte_size`, i.e. it returns the OLD value
plus `n` — at `u = 10`, `n = 3`, `w = 64` it sets the counter to `7` and
returns `13`, not `7`, contradicting the claim and the function's own
doc comment ("returning the new value"). -/
theorem sub_usage_returns_old_plus_n :
    (∀ w u n : Nat, add_usage w u n = (wrapWord w (u + n), wrapWord w (u + n))) ∧
    sub_usage 64 10 3 = (7, 13) ∧ (sub_usage 64 10 3).2 ≠ (sub_usage 64 10 3).1 := by
  refine ⟨fun w u n => rfl, ?_, ?_⟩ <;> decide

/-- A `countP` over a list splits pointwise against a `countP` over its
image when the two predicates add up row by row. -/
theorem countP_split_pointwise {α : Type} (p r : α → Bool) (q : α → Bool) (g : α → α)
    (l : List α) (h : ∀ a, (p a).toNat + (q (g a)).toNat = (r a).toNat) :
    l.countP p + (l.map g).countP q = l.countP r := by
  induction l with
  | nil => simp
  | cons a l ih =>
      simp only [List.countP_cons, List.map_cons]
      have hpt := h a
      cases hp : p a <;> cases hq : q (g a) <;> cases hr : r a <;>
        simp [hp, hq, hr, List.countP_map] at hpt ih ⊢ <;> omega

/-- Composing one `acids` UPDATE for `id` with the updates for `rest`
acts on each row like the combined update for `id :: rest`. -/
theorem promoteRow_comp (height : Int) (id : AcidId) (rest : List AcidId) (row : AcidRow) :
    (fun row : AcidRow =>
        if row.2.1 ∈ rest ∧ row.2.2 = none then (row.1, row.2.1, some height) else row)
      ((fun row : AcidRow =>
        if row.2.1 = id ∧ row.2.2 = none then (row.1, row.2.1, some height) else row) row)
    = if row.2.1 ∈ id :: rest ∧ row.2.2 = none then (row.1, row.2.1, some height) else row := by
  by_cases h1 : row.2.1 = id <;> by_cases h2 : row.2.2 = none <;>
    simp [h1, h2, List.mem_cons]

/-- The per-row transition counts of one `acids` UPDATE for `id` and of
the updates for `rest` add up to the count for `id :: rest`. -/
theorem promoteRow_count (height : Int) (id : AcidId) (rest : List AcidId) (row : AcidRow) :
    (decide (row.2.1 = id ∧ row.2.2 = none)).toNat +
      (decide ((((fun row : AcidRow =>
          if row.2.1 = id ∧ row.2.2 = none then (row.1, row.2.1, some height) else row) row)).2.1 ∈ rest ∧
        (((fun row : AcidRow =>
          if row.2.1 = id ∧ row.2.2 = none then (row.1, row.2.1, some height) else row) row)).2.2 = none)).toNat
    = (decide (row.2.1 ∈ id :: rest ∧ row.2.2 = none)).toNat := by
  by_cases h1 : row.2.1 = id <;> by_cases h2 : row.2.2 = none <;>
    simp [h1, h2, List.mem_cons]

/-- `mempool_to_chain`'s fold with an arbitrary starting count. -/
theorem mempool_to_chain_acc (height : Int) (ids : List AcidId) (t : AcidsTable) (n : Nat) :
    ids.foldl
        (fun s id =>
          let p := acidsPromoteOne height s.1 id
          (p.1, s.2 + p.2))
        (t, n)
      = ((mempool_to_chain height ids t).1, n + (mempool_to_chain height ids t).2) := by
  induction ids generalizing t n with
  | nil => simp [mempool_to_chain]
  | cons id rest ih =>
      simp only [mempool_to_chain, List.foldl_cons]
      rw [ih, ih]
      simp only [Prod.mk.injEq, true_and]
      omega

/-- C6: `mempool_to_chain(chain_index, ids)` sets `chain_height` to the
given height for exactly those table rows whose id is listed and whose
`chain_height` is currently NULL, leaves every other row (and the seq
numbering) unchanged, and returns the number of rows that transitioned
from NULL to set; ids absent from the table, ids already assigned a
chain height, and repeated occurrences of an id contribute nothing. -/
theorem mempool_to_chain_spec (height : Int) (ids : List AcidId) (t : AcidsTable) :
    mempool_to_chain height ids t =
      ({ rows := t.rows.map fun row =>
            if row.2.1 ∈ ids ∧ row.2.2 = none then (row.1, row.2.1, some height) else row,
         nextSeq := t.nextSeq },
       t.rows.countP fun row => decide (row.2.1 ∈ ids ∧ row.2.2 = none)) := by
  induction ids generalizing t with
  | nil =>
      simp [mempool_to_chain]
  | cons id rest ih =>
      have hcons : mempool_to_chain height (id :: rest) t
          = ((mempool_to_chain height rest (acidsPromoteOne height t id).1).1,
             (acidsPromoteOne height t id).2 +
               (mempool_to_chain height rest (acidsPromoteOne height t id).1).2) := by
        have h1 : mempool_to_chain height (id :: rest) t
            = List.foldl
                (fun s id =>
                  let p := acidsPromoteOne height s.1 id
                  (p.1, s.2 + p.2))
                ((acidsPromoteOne height t id).1, 0 + (acidsPromoteOne height t id).2)
                rest := rfl
        rw [h1, mempool_to_chain_acc]
        simp
      rw [hcons, ih]
      have hrows : ((acidsPromoteOne height t id).1).rows
          = t.rows.map fun row =>
              if row.2.1 = id ∧ row.2.2 = none then (row.1, row.2.1, some height) else row := rfl
      have hcount : (acidsPromoteOne height t id).2
          = t.rows.countP fun row => decide (row.2.1 = id ∧ row.2.2 = none) := rfl
      simp only [hrows, hcount, List.map_map, Prod.mk.injEq, AcidsTable.mk.injEq]
      refine ⟨⟨?_, rfl⟩, ?_⟩
      · exact List.map_congr_left fun row _ => promoteRow_comp height id rest row
      · exact countP_split_pointwise _ _ _ _ t.rows (promoteRow_count height id rest)

/-- C7: `accept_to_mempool` inserts an id with NULL `chain_height` only
when the id is not yet present, and silently ignores duplicates: on a
table without the id, one call appends exactly one mempool row, a second
call leaves the table (and the row the first call created) unchanged,
and on any table that already holds the id the call is the identity. -/
theorem accept_to_mempool_idempotent (t : AcidsTable) (id : AcidId)
    (hnew : ∀ row ∈ t.rows, row.2.1 ≠ id) :
    accept_to_mempool [id] t =
      { rows := t.rows ++ [(t.nextSeq, id, none)], nextSeq := t.nextSeq + 1 } ∧
    (accept_to_mempool [id] t).rows.length = t.rows.length + 1 ∧
    accept_to_mempool [id] (accept_to_mempool [id] t) = accept_to_mempool [id] t ∧
    ∀ u : AcidsTable, (∃ row ∈ u.rows, row.2.1 = id) → accept_to_mempool [id] u = u := by
  have hid : ∀ u : AcidsTable, (∃ row ∈ u.rows, row.2.1 = id) →
      accept_to_mempool [id] u = u := by
    intro u hu
    have hany : (u.rows.any fun row => row.2.1 = id) = true := by
      rcases hu with ⟨row, hmem, hrow⟩
      exact List.any_eq_true.mpr ⟨row, hmem, by simp [hrow]⟩
    simp [accept_to_mempool, acidsInsertIgnore, hany]
  have hany : (t.rows.any fun row => row.2.1 = id) = false := by
    simp only [List.any_eq_false]
    intro row hmem
    simp [hnew row hmem]
  have hfirst : accept_to_mempool [id] t =
      { rows := t.rows ++ [(t.nextSeq, id, none)], nextSeq := t.nextSeq + 1 } := by
    simp [accept_to_mempool, acidsInsertIgnore, hany]
  refine ⟨hfirst, by simp [hfirst], ?_, hid⟩
  exact hid _ ⟨(t.nextSeq, id, none), by simp [hfirst], rfl⟩

/-- Witness for the `accept_to_mempool` idempotence claim at a concrete
empty table and id. -/
theorem accept_to_mempool_idempotent_witness :
    accept_to_mempool [5] (AcidsTable.mk [] 0) = AcidsTable.mk [(0, 5, none)] 1 ∧
    accept_to_mempool [5] (accept_to_mempool [5] (AcidsTable.mk [] 0))
      = accept_to_mempool [5] (AcidsTable.mk [] 0) := by
  have h := accept_to_mempool_idempotent (AcidsTable.mk [] 0) 5 (by simp)
  exact ⟨h.1, h.2.2.1⟩

/-- A put call into an empty shared batch with `max_write_queries ≥ 1`
and a non-empty intrinsic stream flushes at once: the stores absorb the
two entries, the call's completion cell is `Succeeded`, and a cleared
batch with a fresh cell is installed. -/
theorem put_on_empty_batch (env : KvsEnvironment) (id : KvsId) (intr extr : Bytes)
    (hmax : 1 ≤ env.max_write_queries)
    (hi : env.write_batch.intrinsic = []) (he : env.write_batch.extrinsic = [])
    (hl : env.write_batch.len_ = 0) (hintr : intr ≠ []) :
    (PutQuery.new id intr extr none none env).2 = env.write_batch.result ∧
    (PutQuery.new id intr extr none none env).1.dbIntrinsic
      = (fun k => if k = id then intr else env.dbIntrinsic k) ∧
    (PutQuery.new id intr extr none none env).1.dbExtrinsic
      = (if extr.isEmpty then env.dbExtrinsic
         else fun k => if k = id then extr else env.dbExtrinsic k) ∧
    (PutQuery.new id intr extr none none env).1.max_write_queries = env.max_write_queries ∧
    (PutQuery.new id intr extr none none env).1.write_batch = WriteBatch.clear env.nextCell ∧
    (PutQuery.new id intr extr none none env).1.cells
      = setCell env.cells env.write_batch.result PutResult.Succeeded ∧
    (PutQuery.new id intr extr none none env).1.nextCell = env.nextCell + 1 := by
  obtain ⟨a, as, rfl⟩ := List.exists_cons_of_ne_nil hintr
  cases extr with
  | nil =>
      refine ⟨?_, ?_, ?_, ?_, ?_, ?_, ?_⟩ <;>
        simp [PutQuery.new, WriteBatch.put, kvsFlush, WriteBatch.clear, ldbApply,
          setCell, hi, he, hl, hmax]
  | cons b bs =>
      refine ⟨?_, ?_, ?_, ?_, ?_, ?_, ?_⟩ <;>
        simp [PutQuery.new, WriteBatch.put, kvsFlush, WriteBatch.clear, ldbApply,
          setCell, hi, he, hl, hmax]

/-- C3: for every KVS put call, after appending to the shared batch, if
the batch length is at most `max_write_queries` the batch is flushed
before the call returns (the installed batch is empty and the returned
query is finished); otherwise the call returns without flushing (stores
and cells untouched, the query unfinished) and the flush then happens in
`wait()`. -/
theorem put_flushes_iff_within_limit (env : KvsEnvironment) (id : KvsId)
    (intr extr : Bytes) (eo io : Option Nat)
    (hcell : env.cells env.write_batch.result = PutResult.NotYet) :
    ((env.write_batch.put id intr extr).1.len_ ≤ env.max_write_queries →
      (PutQuery.new id intr extr eo io env).1.write_batch.intrinsic = [] ∧
      (PutQuery.new id intr extr eo io env).1.write_batch.extrinsic = [] ∧
      (PutQuery.new id intr extr eo io env).1.write_batch.len_ = 0 ∧
      PutQuery.is_finished (PutQuery.new id intr extr eo io env).1
        (PutQuery.new id intr extr eo io env).2 = true) ∧
    (env.max_write_queries < (env.write_batch.put id intr extr).1.len_ →
      (PutQuery.new id intr extr eo io env).1.dbIntrinsic = env.dbIntrinsic ∧
      (PutQuery.new id intr extr eo io env).1.dbExtrinsic = env.dbExtrinsic ∧
      (PutQuery.new id intr extr eo io env).1.cells = env.cells ∧
      (PutQuery.new id intr extr eo io env).1.write_batch
        = (env.write_batch.put id intr extr).1 ∧
      PutQuery.is_finished (PutQuery.new id intr extr eo io env).1
        (PutQuery.new id intr extr eo io env).2 = false ∧
      (PutQuery.wait (PutQuery.new id intr extr eo io env).2 eo io
          (PutQuery.new id intr extr eo io env).1).1.write_batch.len_ = 0 ∧
      (PutQuery.wait (PutQuery.new id intr extr eo io env).2 eo io
          (PutQuery.new id intr extr eo io env).1).2 ≠ none) := by
  have hres : (env.write_batch.put id intr extr).1.result = env.write_batch.result := rfl
  have hres2 : (env.write_batch.put id intr extr).2 = env.write_batch.result := rfl
  constructor
  · intro hle
    have hq : PutQuery.new id intr extr eo io env
        = (kvsFlush eo io { env with write_batch := (env.write_batch.put id intr extr).1 },
           env.write_batch.result) := by
      simp [PutQuery.new, hle, hres2]
    rw [hq]
    cases eo with
    | some e => simp [kvsFlush, WriteBatch.clear, PutQuery.is_finished, setCell, hres]
    | none =>
        cases io with
        | some e => simp [kvsFlush, WriteBatch.clear, PutQuery.is_finished, setCell, hres]
        | none => simp [kvsFlush, WriteBatch.clear, PutQuery.is_finished, setCell, hres]
  · intro hlt
    have hnle : ¬(env.write_batch.put id intr extr).1.len_ ≤ env.max_write_queries := by
      omega
    have hq : PutQuery.new id intr extr eo io env
        = ({ env with write_batch := (env.write_batch.put id intr extr).1 },
           env.write_batch.result) := by
      simp [PutQuery.new, hnle, hres2]
    rw [hq]
    refine ⟨rfl, rfl, rfl, rfl, ?_, ?_, ?_⟩
    · simp [PutQuery.is_finished, hcell]
    · cases eo with
      | some e => simp [PutQuery.wait, PutQuery.is_finished, hcell, kvsFlush,
          WriteBatch.clear, setCell, hres]
      | none =>
          cases io with
          | some e => simp [PutQuery.wait, PutQuery.is_finished, hcell, kvsFlush,
              WriteBatch.clear, setCell, hres]
          | none => simp [PutQuery.wait, PutQuery.is_finished, hcell, kvsFlush,
              WriteBatch.clear, setCell, hres]
    · cases eo with
      | some e => simp [PutQuery.wait, PutQuery.is_finished, hcell, kvsFlush,
          WriteBatch.clear, setCell, hres]
      | none =>
          cases io with
          | some e => simp [PutQuery.wait, PutQuery.is_finished, hcell, kvsFlush,
              WriteBatch.clear, setCell, hres]
          | none => simp [PutQuery.wait, PutQuery.is_finished, hcell, kvsFlush,
              WriteBatch.clear, setCell, hres]

/-- Witness for the put/flush-condition claim: with `max_write_queries = 0`
the first put exceeds the limit, so the call leaves the store and the
appended batch in place. -/
theorem put_flushes_iff_within_limit_witness :
    (PutQuery.new 1 [1] [2] none none (kvsInit 0)).1.dbIntrinsic
      = (kvsInit 0).dbIntrinsic ∧
    (PutQuery.new 1 [1] [2] none none (kvsInit 0)).1.write_batch
      = ((kvsInit 0).write_batch.put 1 [1] [2]).1 := by
  have h := put_flushes_iff_within_limit (kvsInit 0) 1 [1] [2] none none rfl
  have h2 := h.2 (by decide)
  exact ⟨h2.1, h2.2.2.2.1⟩

/-- C4: every batch flush writes the extrinsic batch to its store before
the intrinsic batch: if the extrinsic write fails neither store changes,
if the intrinsic write fails the extrinsic batch has nevertheless been
applied; on any error the shared completion cell is set to that error
and the batch is cleared; on success the cell is set to `Succeeded` and
the batch is cleared; clearing installs a fresh `NotYet` cell and resets
the batch length to `0`. -/
theorem flush_order_and_completion (env : KvsEnvironment) (eo io : Option Nat)
    (hfresh1 : env.write_batch.result ≠ env.nextCell)
    (hfresh2 : env.cells env.nextCell = PutResult.NotYet) :
    ((kvsFlush eo io env).write_batch = WriteBatch.clear env.nextCell ∧
     (kvsFlush eo io env).write_batch.intrinsic = [] ∧
     (kvsFlush eo io env).write_batch.extrinsic = [] ∧
     (kvsFlush eo io env).write_batch.len_ = 0 ∧
     (kvsFlush eo io env).cells ((kvsFlush eo io env).write_batch.result)
       = PutResult.NotYet) ∧
    (∀ e, eo = some e →
      (kvsFlush eo io env).cells env.write_batch.result = PutResult.Error e ∧
      (kvsFlush eo io env).dbIntrinsic = env.dbIntrinsic ∧
      (kvsFlush eo io env).dbExtrinsic = env.dbExtrinsic) ∧
    (∀ e, eo = none → io = some e →
      (kvsFlush eo io env).cells env.write_batch.result = PutResult.Error e ∧
      (kvsFlush eo io env).dbExtrinsic
        = ldbApply env.dbExtrinsic env.write_batch.extrinsic ∧
      (kvsFlush eo io env).dbIntrinsic = env.dbIntrinsic) ∧
    (eo = none → io = none →
      (kvsFlush eo io env).cells env.write_batch.result = PutResult.Succeeded ∧
      (kvsFlush eo io env).dbExtrinsic
        = ldbApply env.dbExtrinsic env.write_batch.extrinsic ∧
      (kvsFlush eo io env).dbIntrinsic
        = ldbApply env.dbIntrinsic env.write_batch.intrinsic) := by
  have hne : env.nextCell ≠ env.write_batch.result := fun h => hfresh1 h.symm
  cases eo with
  | some e =>
      refine ⟨⟨rfl, rfl, rfl, rfl, ?_⟩, ?_, ?_, ?_⟩
      · simp [kvsFlush, WriteBatch.clear, setCell, hne, hfresh2]
      · intro e' he'
        cases he'
        simp [kvsFlush, setCell]
      · intro e' he'
        cases he'
      · intro he'
        cases he'
  | none =>
      cases io with
      | some e =>
          refine ⟨⟨rfl, rfl, rfl, rfl, ?_⟩, ?_, ?_, ?_⟩
          · simp [kvsFlush, WriteBatch.clear, setCell, hne, hfresh2]
          · intro e' he'
            cases he'
          · intro e' _ he'
            cases he'
            simp [kvsFlush, setCell]
          · intro _ he'
            cases he'
      | none =>
          refine ⟨⟨rfl, rfl, rfl, rfl, ?_⟩, ?_, ?_, ?_⟩
          · simp [kvsFlush, WriteBatch.clear, setCell, hne, hfresh2]
          · intro e' he'
            cases he'
          · intro e' _ he'
            cases he'
          · intro _ _
            simp [kvsFlush, setCell]

/-- Witness for the flush-protocol claim at a concrete fresh module
state, exercising the success path and an intrinsic-write failure. -/
theorem flush_order_and_completion_witness :
    (kvsFlush none none (kvsInit 4)).cells (kvsInit 4).write_batch.result
      = PutResult.Succeeded ∧
    (kvsFlush none (some 9) (kvsInit 4)).cells (kvsInit 4).write_batch.result
      = PutResult.Error 9 ∧
    (kvsFlush none (some 9) (kvsInit 4)).write_batch.len_ = 0 := by
  have hok := flush_order_and_completion (kvsInit 4) none none (by decide) rfl
  have herr := flush_order_and_completion (kvsInit 4) none (some 9) (by decide) rfl
  exact ⟨(hok.2.2.2 rfl rfl).1, (herr.2.2.1 9 rfl rfl).1, herr.1.2.2.2.1⟩

/-- C10: a record whose intrinsic byte string is empty is
indistinguishable from an absent record: a put appends nothing to the
intrinsic batch when the intrinsic bytes are empty (and likewise for
empty extrinsic bytes), a put call with empty intrinsic bytes never
changes the intrinsic store when the pending intrinsic batch is empty,
and for every id whose stored intrinsic value is empty `fetch(id).wait()`
returns `Ok(None)` whatever the extrinsic store holds. -/
theorem empty_intrinsic_reads_none (b : WriteBatch) (id : KvsId) (intr extr : Bytes)
    (eo io : Option Nat) (env : KvsEnvironment)
    (hid : env.dbIntrinsic id = [])
    (hbatch : env.write_batch.intrinsic = []) :
    (b.put id [] extr).1.intrinsic = b.intrinsic ∧
    (b.put id intr []).1.extrinsic = b.extrinsic ∧
    (∀ dbE : KvsId → Bytes,
        FetchQuery.wait { env with dbExtrinsic := dbE } id = .ok none) ∧
    (PutQuery.new id [] extr eo io env).1.dbIntrinsic = env.dbIntrinsic := by
  refine ⟨by simp [WriteBatch.put], by simp [WriteBatch.put], ?_, ?_⟩
  · intro dbE
    simp [FetchQuery.wait, FetchQuery.do_fetch, hid]
  · by_cases hc : (env.write_batch.put id [] extr).1.len_ ≤ env.max_write_queries
    · have hbi : (env.write_batch.put id [] extr).1.intrinsic = [] := by
        simp [WriteBatch.put, hbatch]
      cases eo with
      | some e => simp [PutQuery.new, hc, kvsFlush]
      | none =>
          cases io with
          | some e => simp [PutQuery.new, hc, kvsFlush]
          | none => simp [PutQuery.new, hc, kvsFlush, hbi, ldbApply]
    · simp [PutQuery.new, hc]

/-- Witness for the empty-intrinsic claim at a concrete store and id. -/
theorem empty_intrinsic_reads_none_witness :
    FetchQuery.wait { kvsInit 4 with dbExtrinsic := fun _ => [7] } 3 = .ok none ∧
    (PutQuery.new 3 [] [7] none none (kvsInit 4)).1.dbIntrinsic
      = (kvsInit 4).dbIntrinsic := by
  have h := empty_intrinsic_reads_none ((kvsInit 4).write_batch) 3 [1] [7]
    none none (kvsInit 4) rfl rfl
  exact ⟨h.2.2.1 (fun _ => [7]), h.2.2.2⟩

/-- C2 counterexample: with `max_write_queries = 4` and an initially
empty shared batch, the very first insert call finds a batch of length
`1 ≤ 4` and flushes it at once — its `WriteQuery` is already finished
(cell `Succeeded`) and the batch is empty again, contradicting the claim
that the first three inserts leave their queries unfinished. -/
theorem batch_four_first_insert_already_finished :
    PutQuery.is_finished (PutQuery.new 1 [1] [101] none none (kvsInit 4)).1
        (PutQuery.new 1 [1] [101] none none (kvsInit 4)).2 = true ∧
    (PutQuery.new 1 [1] [101] none none (kvsInit 4)).1.cells
        (PutQuery.new 1 [1] [101] none none (kvsInit 4)).2 = PutResult.Succeeded ∧
    (PutQuery.new 1 [1] [101] none none (kvsInit 4)).1.write_batch.len_ = 0 := by
  refine ⟨rfl, rfl, rfl⟩

/-- Reading the extrinsic store installed by one flushed put at a key
the put did not touch. -/
theorem extrStore_other (db : KvsId → Bytes) (d k : KvsId) (e : Bytes)
    (hk : k ≠ d) :
    (if e.isEmpty then db else fun k => if k = d then e else db k) k = db k := by
  by_cases he : e.isEmpty <;> simp [he, hk]

/-- Reading the extrinsic store installed by one flushed put at the
put's own key, when the store previously held nothing there. -/
theorem extrStore_self (db : KvsId → Bytes) (d : KvsId) (e : Bytes)
    (hd : db d = []) :
    (if e.isEmpty then db else fun k => if k = d then e else db k) d = e := by
  cases e with
  | nil => simpa using hd
  | cons b bs => simp

/-- A non-empty byte string is not `isEmpty`. -/
theorem isEmpty_false_of_ne_nil (l : Bytes) (h : l ≠ []) : l.isEmpty = false := by
  cases l with
  | nil => exact absurd rfl h
  | cons a as => rfl

/-- C2 amended: with `max_write_queries = 4` and an initially empty
shared write batch, each of the four insert calls finds a batch of
length `1 ≤ 4` and therefore flushes it before returning, so every
returned `WriteQuery` is already finished; all four `wait()` calls
return `Ok` and the four written rows are visible to subsequent
fetches. -/
theorem batch_four_every_insert_flushes
    (d1 d2 d3 d4 : KvsId) (i1 i2 i3 i4 e1 e2 e3 e4 : Bytes)
    (s1 s2 s3 s4 : KvsEnvironment × Nat)
    (h1 : i1 ≠ []) (h2 : i2 ≠ []) (h3 : i3 ≠ []) (h4 : i4 ≠ [])
    (d12 : d1 ≠ d2) (d13 : d1 ≠ d3) (d14 : d1 ≠ d4)
    (d23 : d2 ≠ d3) (d24 : d2 ≠ d4) (d34 : d3 ≠ d4)
    (hs1 : s1 = PutQuery.new d1 i1 e1 none none (kvsInit 4))
    (hs2 : s2 = PutQuery.new d2 i2 e2 none none s1.1)
    (hs3 : s3 = PutQuery.new d3 i3 e3 none none s2.1)
    (hs4 : s4 = PutQuery.new d4 i4 e4 none none s3.1) :
    (PutQuery.is_finished s1.1 s1.2 = true ∧ PutQuery.is_finished s2.1 s2.2 = true ∧
     PutQuery.is_finished s3.1 s3.2 = true ∧ PutQuery.is_finished s4.1 s4.2 = true) ∧
    ((PutQuery.wait s1.2 none none s4.1).2 = some (Except.ok ()) ∧
     (PutQuery.wait s2.2 none none s4.1).2 = some (Except.ok ()) ∧
     (PutQuery.wait s3.2 none none s4.1).2 = some (Except.ok ()) ∧
     (PutQuery.wait s4.2 none none s4.1).2 = some (Except.ok ())) ∧
    (FetchQuery.wait s4.1 d1 = .ok (some (i1, e1)) ∧
     FetchQuery.wait s4.1 d2 = .ok (some (i2, e2)) ∧
     FetchQuery.wait s4.1 d3 = .ok (some (i3, e3)) ∧
     FetchQuery.wait s4.1 d4 = .ok (some (i4, e4))) := by
  have F1 := put_on_empty_batch (kvsInit 4) d1 i1 e1 (by decide) rfl rfl rfl h1
  rw [← hs1] at F1
  obtain ⟨r1, I1f, E1f, M1, B1, Cc1, N1⟩ := F1
  have F2 := put_on_empty_batch s1.1 d2 i2 e2 (by rw [M1]; decide)
    (by simp [B1, WriteBatch.clear]) (by simp [B1, WriteBatch.clear])
    (by simp [B1, WriteBatch.clear]) h2
  rw [← hs2] at F2
  obtain ⟨r2, I2f, E2f, M2, B2, Cc2, N2⟩ := F2
  have F3 := put_on_empty_batch s2.1 d3 i3 e3 (by rw [M2, M1]; decide)
    (by simp [B2, WriteBatch.clear]) (by simp [B2, WriteBatch.clear])
    (by simp [B2, WriteBatch.clear]) h3
  rw [← hs3] at F3
  obtain ⟨r3, I3f, E3f, M3, B3, Cc3, N3⟩ := F3
  have F4 := put_on_empty_batch s3.1 d4 i4 e4 (by rw [M3, M2, M1]; decide)
    (by simp [B3, WriteBatch.clear]) (by simp [B3, WriteBatch.clear])
    (by simp [B3, WriteBatch.clear]) h4
  rw [← hs4] at F4
  obtain ⟨r4, I4f, E4f, M4, B4, Cc4, N4⟩ := F4
  have R1 : s1.2 = 0 := by rw [r1]; rfl
  have B1v : s1.1.write_batch = WriteBatch.clear 1 := by rw [B1]; rfl
  have N1v : s1.1.nextCell = 2 := by rw [N1]; rfl
  have R2 : s2.2 = 1 := by rw [r2, B1v]; rfl
  have B2v : s2.1.write_batch = WriteBatch.clear 2 := by rw [B2, N1v]
  have N2v : s2.1.nextCell = 3 := by rw [N2, N1v]
  have R3 : s3.2 = 2 := by rw [r3, B2v]; rfl
  have B3v : s3.1.write_batch = WriteBatch.clear 3 := by rw [B3, N2v]
  have N3v : s3.1.nextCell = 4 := by rw [N3, N2v]
  have R4 : s4.2 = 3 := by rw [r4, B3v]; rfl
  have CC1 : s1.1.cells
      = setCell (fun _ => PutResult.NotYet) 0 PutResult.Succeeded := by rw [Cc1]; rfl
  have CC2 : s2.1.cells
      = setCell (setCell (fun _ => PutResult.NotYet) 0 PutResult.Succeeded)
          1 PutResult.Succeeded := by rw [Cc2, CC1, B1v]; rfl
  have CC3 : s3.1.cells
      = setCell (setCell (setCell (fun _ => PutResult.NotYet) 0 PutResult.Succeeded)
          1 PutResult.Succeeded) 2 PutResult.Succeeded := by rw [Cc3, CC2, B2v]; rfl
  have CC4 : s4.1.cells
      = setCell (setCell (setCell (setCell (fun _ => PutResult.NotYet)
          0 PutResult.Succeeded) 1 PutResult.Succeeded) 2 PutResult.Succeeded)
          3 PutResult.Succeeded := by rw [Cc4, CC3, B3v]; rfl
  have IV1 : s4.1.dbIntrinsic d1 = i1 := by simp [I4f, I3f, I2f, I1f, d14, d13, d12]
  have IV2 : s4.1.dbIntrinsic d2 = i2 := by simp [I4f, I3f, I2f, d24, d23]
  have IV3 : s4.1.dbIntrinsic d3 = i3 := by simp [I4f, I3f, d34]
  have IV4 : s4.1.dbIntrinsic d4 = i4 := by simp [I4f]
  have EV1 : s4.1.dbExtrinsic d1 = e1 := by
    rw [E4f, extrStore_other _ _ _ _ d14, E3f, extrStore_other _ _ _ _ d13,
      E2f, extrStore_other _ _ _ _ d12, E1f]
    exact extrStore_self _ _ _ rfl
  have EV2 : s4.1.dbExtrinsic d2 = e2 := by
    rw [E4f, extrStore_other _ _ _ _ d24, E3f, extrStore_other _ _ _ _ d23, E2f]
    refine extrStore_self _ _ _ ?_
    rw [E1f, extrStore_other _ _ _ _ (Ne.symm d12)]; rfl
  have EV3 : s4.1.dbExtrinsic d3 = e3 := by
    rw [E4f, extrStore_other _ _ _ _ d34, E3f]
    refine extrStore_self _ _ _ ?_
    rw [E2f, extrStore_other _ _ _ _ (Ne.symm d23), E1f,
      extrStore_other _ _ _ _ (Ne.symm d13)]; rfl
  have EV4 : s4.1.dbExtrinsic d4 = e4 := by
    rw [E4f]
    refine extrStore_self _ _ _ ?_
    rw [E3f, extrStore_other _ _ _ _ (Ne.symm d34), E2f,
      extrStore_other _ _ _ _ (Ne.symm d24), E1f,
      extrStore_other _ _ _ _ (Ne.symm d14)]; rfl
  refine ⟨⟨?_, ?_, ?_, ?_⟩, ⟨?_, ?_, ?_, ?_⟩, ⟨?_, ?_, ?_, ?_⟩⟩
  · simp [PutQuery.is_finished, CC1, R1, setCell]
  · simp [PutQuery.is_finished, CC2, R2, setCell]
  · simp [PutQuery.is_finished, CC3, R3, setCell]
  · simp [PutQuery.is_finished, CC4, R4, setCell]
  · simp [PutQuery.wait, PutQuery.is_finished, CC4, R1, setCell]
  · simp [PutQuery.wait, PutQuery.is_finished, CC4, R2, setCell]
  · simp [PutQuery.wait, PutQuery.is_finished, CC4, R3, setCell]
  · simp [PutQuery.wait, PutQuery.is_finished, CC4, R4, setCell]
  · simp [FetchQuery.wait, FetchQuery.do_fetch, IV1, EV1,
      isEmpty_false_of_ne_nil i1 h1]
  · simp [FetchQuery.wait, FetchQuery.do_fetch, IV2, EV2,
      isEmpty_false_of_ne_nil i2 h2]
  · simp [FetchQuery.wait, FetchQuery.do_fetch, IV3, EV3,
      isEmpty_false_of_ne_nil i3 h3]
  · simp [FetchQuery.wait, FetchQuery.do_fetch, IV4, EV4,
      isEmpty_false_of_ne_nil i4 h4]

/-- Witness for the amended batching claim at four concrete inserts. -/
theorem batch_four_every_insert_flushes_witness :
    PutQuery.is_finished (PutQuery.new 1 [11] [21] none none (kvsInit 4)).1
        (PutQuery.new 1 [11] [21] none none (kvsInit 4)).2 = true ∧
    FetchQuery.wait
        (PutQuery.new 4 [14] [24] none none
          (PutQuery.new 3 [13] [23] none none
            (PutQuery.new 2 [12] [22] none none
              (PutQuery.new 1 [11] [21] none none (kvsInit 4)).1).1).1).1 2
      = .ok (some ([12], [22])) := by
  have h := batch_four_every_insert_flushes 1 2 3 4 [11] [12] [13] [14]
    [21] [22] [23] [24]
    (PutQuery.new 1 [11] [21] none none (kvsInit 4))
    (PutQuery.new 2 [12] [22] none none
      (PutQuery.new 1 [11] [21] none none (kvsInit 4)).1)
    (PutQuery.new 3 [13] [23] none none
      (PutQuery.new 2 [12] [22] none none
        (PutQuery.new 1 [11] [21] none none (kvsInit 4)).1).1)
    (PutQuery.new 4 [14] [24] none none
      (PutQuery.new 3 [13] [23] none none
        (PutQuery.new 2 [12] [22] none none
          (PutQuery.new 1 [11] [21] none none (kvsInit 4)).1).1).1)
    (by decide) (by decide) (by decide) (by decide)
    (by decide) (by decide) (by decide) (by decide) (by decide) (by decide)
    rfl rfl rfl rfl
  exact ⟨h.1.1, h.2.2.2.1⟩

/-- The eviction loop never changes the configured soft limit. -/
theorem evictLoopFuel_soft_limit (fuel : Nat) (c : CacheEnvironment) :
    (evictLoopFuel fuel c).size_soft_limit = c.size_soft_limit := by
  induction fuel generalizing c with
  | zero => rfl
  | succ fuel ih =>
      by_cases hc : c.size_soft_limit < c.usage
      · simp only [evictLoopFuel, hc, if_true]
        cases hl : c.entries.getLast? with
        | none => simp [cacheExpire, hl]
        | some e => simp [cacheExpire, hl, ih]
      · simp [evictLoopFuel, hc]

/-- When started with at least as much fuel as there are entries, the
eviction loop stops only once the usage is within the soft limit or the
cache has been emptied (`expire` failing is exactly the empty case). -/
theorem evictLoopFuel_post (fuel : Nat) (c : CacheEnvironment)
    (hfuel : c.entries.length ≤ fuel) :
    (evictLoopFuel fuel c).usage ≤ c.size_soft_limit ∨
      (evictLoopFuel fuel c).entries = [] := by
  induction fuel generalizing c with
  | zero =>
      right
      simpa [evictLoopFuel] using List.length_eq_zero.mp (Nat.le_zero.mp hfuel)
  | succ fuel ih =>
      by_cases hc : c.size_soft_limit < c.usage
      · simp only [evictLoopFuel, hc, if_true]
        cases hl : c.entries.getLast? with
        | none =>
            right
            simpa [cacheExpire, hl] using List.getLast?_eq_none_iff.mp hl
        | some e =>
            have hne : c.entries ≠ [] := by
              intro h
              rw [h] at hl
              cases hl
            have hlen : (c.entries.dropLast).length ≤ fuel := by
              have := List.length_dropLast c.entries
              have hpos : 0 < c.entries.length := List.length_pos.mpr hne
              omega
            have := ih { c with entries := c.entries.dropLast,
                                usage := c.usage - e.2.2 } hlen
            simpa [cacheExpire, hl] using this
      · left
        simp only [evictLoopFuel, hc, if_false]
        omega

/-- C8: `not_found(id)` inserts the sentinel and runs the eviction loop
only when no entry with this id exists; on a hit it leaves the cache
completely unchanged (no MRU promotion, no eviction); on a miss the
result is exactly the eviction loop applied to the cache with the
sentinel prepended as MRU, and that loop stops only with the usage
within the soft limit or the cache emptied. -/
theorem not_found_frame (c : CacheEnvironment) (id : AcidId) (size : Nat) :
    ((c.entries.any fun e => e.1 = id) = true → not_found id size c = c) ∧
    ((c.entries.any fun e => e.1 = id) = false →
      not_found id size c =
        evictLoop { c with
          entries := (id, CacheVal.notFoundSentinel, size) :: c.entries,
          usage := c.usage + size } ∧
      ((not_found id size c).usage ≤ c.size_soft_limit ∨
        (not_found id size c).entries = [])) := by
  constructor
  · intro hhit
    simp [not_found, hhit]
  · intro hmiss
    have heq : not_found id size c =
        evictLoop { c with
          entries := (id, CacheVal.notFoundSentinel, size) :: c.entries,
          usage := c.usage + size } := by
      simp [not_found, hmiss]
    refine ⟨heq, ?_⟩
    rw [heq]
    have := evictLoopFuel_post
      ((id, CacheVal.notFoundSentinel, size) :: c.entries).length
      { c with entries := (id, CacheVal.notFoundSentinel, size) :: c.entries,
               usage := c.usage + size } (le_refl _)
    simpa [evictLoop] using this

/-- Witness for the `not_found` frame claim: a hit leaves a one-entry
cache untouched, and a miss on a zero-limit cache inserts and then
evicts down to the empty cache. -/
theorem not_found_frame_witness :
    not_found 7 4 (CacheEnvironment.mk 100 [(7, CacheVal.acid 0, 4)] 4)
      = CacheEnvironment.mk 100 [(7, CacheVal.acid 0, 4)] 4 ∧
    ((not_found 8 4 (CacheEnvironment.mk 0 [] 0)).usage ≤ 0 ∨
      (not_found 8 4 (CacheEnvironment.mk 0 [] 0)).entries = []) := by
  have h1 := not_found_frame (CacheEnvironment.mk 100 [(7, CacheVal.acid 0, 4)] 4) 7 4
  have h2 := not_found_frame (CacheEnvironment.mk 0 [] 0) 8 4
  exact ⟨h1.1 (by decide), (h2.2 (by decide)).2⟩

/-- A successful lookup returns a row of the table. -/
theorem tblLookup_mem (t : ResourcesTable) (r : ResourceId) (v : AssetValue)
    (h : tblLookup t r = some v) : (r, v) ∈ t := by
  induction t with
  | nil => cases h
  | cons p rest ih =>
      obtain ⟨a, b⟩ := p
      rw [tblLookup] at h
      by_cases hp : a = r
      · subst hp
        simp only [if_pos rfl] at h
        obtain rfl := Option.some.inj h
        exact List.mem_cons_self _ _
      · simp only [hp, if_false] at h
        exact List.mem_cons_of_mem _ (ih h)

/-- A lookup misses exactly when no row carries the key. -/
theorem tblLookup_eq_none (t : ResourcesTable) (r : ResourceId) :
    tblLookup t r = none ↔ ∀ p ∈ t, p.1 ≠ r := by
  induction t with
  | nil => simp [tblLookup]
  | cons p rest ih =>
      obtain ⟨a, b⟩ := p
      by_cases hp : a = r
      · subst hp
        simp [tblLookup, ih]
      · simp [tblLookup, hp, ih]

/-- One-row unfolding of `tblSet`. -/
theorem tblSet_cons (a : ResourceId) (b : AssetValue) (rest : ResourcesTable)
    (r : ResourceId) (v : AssetValue) :
    tblSet ((a, b) :: rest) r v
      = (if a = r then (a, v) else (a, b)) :: tblSet rest r v := by
  by_cases hp : a = r <;> simp [tblSet, hp]

/-- One-row unfolding of `tblErase`. -/
theorem tblErase_cons (a : ResourceId) (b : AssetValue) (rest : ResourcesTable)
    (r : ResourceId) :
    tblErase ((a, b) :: rest) r
      = if a = r then tblErase rest r else (a, b) :: tblErase rest r := by
  by_cases hp : a = r <;> simp [tblErase, hp]

/-- Looking up after appending a fresh row. -/
theorem tblLookup_append_fresh (t : ResourcesTable) (r x : ResourceId)
    (v : AssetValue) (hnone : tblLookup t r = none) :
    tblLookup (t ++ [(r, v)]) x = if x = r then some v else tblLookup t x := by
  induction t with
  | nil =>
      by_cases hx : x = r
      · subst hx
        simp [tblLookup]
      · simp [tblLookup, hx, Ne.symm hx]
  | cons p rest ih =>
      obtain ⟨a, b⟩ := p
      rw [tblLookup] at hnone
      by_cases hp : a = r
      · simp [hp] at hnone
      · simp only [hp, if_false] at hnone
        by_cases hx : a = x
        · subst hx
          simp [List.cons_append, tblLookup, hp]
        · simp [List.cons_append, tblLookup, hx, ih hnone]

/-- Looking up the overwritten key after `tblSet`. -/
theorem tblLookup_set_self (t : ResourcesTable) (r : ResourceId)
    (v w : AssetValue) (h : tblLookup t r = some w) :
    tblLookup (tblSet t r v) r = some v := by
  induction t with
  | nil => cases h
  | cons p rest ih =>
      obtain ⟨a, b⟩ := p
      rw [tblLookup] at h
      rw [tblSet_cons]
      by_cases hp : a = r
      · simp [tblLookup, hp]
      · simp only [hp, if_false] at h
        simp [tblLookup, hp, ih h]

/-- Looking up any other key after `tblSet`. -/
theorem tblLookup_set_other (t : ResourcesTable) (r x : ResourceId)
    (v : AssetValue) (hx : x ≠ r) :
    tblLookup (tblSet t r v) x = tblLookup t x := by
  induction t with
  | nil => rfl
  | cons p rest ih =>
      obtain ⟨a, b⟩ := p
      rw [tblSet_cons]
      by_cases hp : a = r
      · subst hp
        simp [tblLookup, Ne.symm hx, ih]
      · by_cases hax : a = x
        · simp [tblLookup, hax, hx]
        · simp [tblLookup, hp, hax, ih]

/-- Looking up the erased key after `tblErase`. -/
theorem tblLookup_erase_self (t : ResourcesTable) (r : ResourceId) :
    tblLookup (tblErase t r) r = none := by
  induction t with
  | nil => rfl
  | cons p rest ih =>
      obtain ⟨a, b⟩ := p
      rw [tblErase_cons]
      by_cases hp : a = r
      · simpa [hp] using ih
      · simp [tblLookup, hp, ih]

/-- Looking up any other key after `tblErase`. -/
theorem tblLookup_erase_other (t : ResourcesTable) (r x : ResourceId)
    (hx : x ≠ r) :
    tblLookup (tblErase t r) x = tblLookup t x := by
  induction t with
  | nil => rfl
  | cons p rest ih =>
      obtain ⟨a, b⟩ := p
      rw [tblErase_cons]
      by_cases hp : a = r
      · subst hp
        simp [tblLookup, Ne.symm hx, ih]
      · by_cases hax : a = x
        · simp [tblLookup, hax, hx]
        · simp [tblLookup, hp, hax, ih]

/-- Appending a fresh positive row preserves table validity. -/
theorem validTable_append (t : ResourcesTable) (r : ResourceId) (v : AssetValue)
    (hv : validTable t) (hnone : tblLookup t r = none) (hpos : 0 < v) :
    validTable (t ++ [(r, v)]) := by
  obtain ⟨hkeys, hvals⟩ := hv
  constructor
  · rw [List.pairwise_append]
    refine ⟨hkeys, by simp, ?_⟩
    intro p hp q hq
    simp only [List.mem_singleton] at hq
    subst hq
    exact (tblLookup_eq_none t r).mp hnone p hp
  · intro p hp
    rcases List.mem_append.mp hp with h | h
    · exact hvals p h
    · simp only [List.mem_singleton] at h
      subst h
      exact hpos

/-- Overwriting a row with a positive value preserves table validity. -/
theorem validTable_set (t : ResourcesTable) (r : ResourceId) (v : AssetValue)
    (hv : validTable t) (hpos : 0 < v) :
    validTable (tblSet t r v) := by
  obtain ⟨hkeys, hvals⟩ := hv
  constructor
  · have hmap : tblSet t r v = t.map fun p => if p.1 = r then (p.1, v) else p := rfl
    have hfst : ∀ p : ResourceId × AssetValue,
        ((if p.1 = r then (p.1, v) else p) : ResourceId × AssetValue).1 = p.1 := by
      intro p
      by_cases hp : p.1 = r <;> simp [hp]
    rw [hmap, List.pairwise_map]
    refine hkeys.imp ?_
    intro p q h
    simpa [hfst] using h
  · intro p hp
    have : tblSet t r v = t.map fun p => if p.1 = r then (p.1, v) else p := rfl
    rw [this] at hp
    obtain ⟨q, hq, hqe⟩ := List.mem_map.mp hp
    by_cases hqr : q.1 = r
    · simp only [hqr, if_pos] at hqe
      rw [← hqe]
      exact hpos
    · simp only [hqr, if_neg, if_false] at hqe
      rw [← hqe]
      exact hvals q hq
  
/-- Erasing a key preserves table validity. -/
theorem validTable_erase (t : ResourcesTable) (r : ResourceId)
    (hv : validTable t) :
    validTable (tblErase t r) := by
  obtain ⟨hkeys, hvals⟩ := hv
  constructor
  · exact hkeys.sublist (List.filter_sublist t)
  · intro p hp
    exact hvals p (List.mem_of_mem_filter hp)

/-- In a valid table every stored value is strictly positive. -/
theorem balOf_pos_of_some (t : ResourcesTable) (r : ResourceId) (v : AssetValue)
    (hv : validTable t) (h : tblLookup t r = some v) : 0 < v :=
  hv.2 (r, v) (tblLookup_mem t r v h)

/-- In a valid table, a key is missing exactly when its balance reads 0. -/
theorem lookup_eq_balOf (t : ResourcesTable) (r : ResourceId) (hv : validTable t) :
    tblLookup t r = if balOf t r = 0 then none else some (balOf t r) := by
  cases h : tblLookup t r with
  | none => simp [balOf, h]
  | some v =>
      have hpos := balOf_pos_of_some t r v hv h
      have hb : balOf t r = v := by simp [balOf, h]
      rw [hb, if_neg (ne_of_gt hpos)]

/-- `sumDeltas` on a cons cell. -/
theorem sumDeltas_cons (b : ResourceId × AssetValue)
    (bal : List (ResourceId × AssetValue)) (r : ResourceId) :
    sumDeltas (b :: bal) r
      = if b.1 = r then b.2 + sumDeltas bal r else sumDeltas bal r := by
  by_cases h : b.1 = r <;> simp [sumDeltas, List.filter_cons, h]

/-- `posSum` on a cons cell. -/
theorem posSum_cons (b : ResourceId × AssetValue)
    (bal : List (ResourceId × AssetValue)) (r : ResourceId) :
    posSum (b :: bal) r
      = if b.1 = r ∧ 0 < b.2 then b.2 + posSum bal r else posSum bal r := by
  by_cases h : b.1 = r ∧ 0 < b.2 <;> simp [posSum, List.filter_cons, h]

/-- `negSum` on a cons cell. -/
theorem negSum_cons (b : ResourceId × AssetValue)
    (bal : List (ResourceId × AssetValue)) (r : ResourceId) :
    negSum (b :: bal) r
      = if b.1 = r ∧ b.2 < 0 then b.2 + negSum bal r else negSum bal r := by
  by_cases h : b.1 = r ∧ b.2 < 0 <;> simp [negSum, List.filter_cons, h]

/-- The withdraw-phase contribution is never positive. -/
theorem negSum_nonpos (bal : List (ResourceId × AssetValue)) (r : ResourceId) :
    negSum bal r ≤ 0 := by
  induction bal with
  | nil => simp [negSum]
  | cons b rest ih =>
      rw [negSum_cons]
      by_cases h : b.1 = r ∧ b.2 < 0
      · rw [if_pos h]
        have hb2 : b.2 < 0 := h.2
        linarith
      · rwa [if_neg h]

/-- The total of all deltas for a key splits into the deposit-phase and
withdraw-phase contributions. -/
theorem sumDeltas_split (bal : List (ResourceId × AssetValue)) (r : ResourceId) :
    sumDeltas bal r = posSum bal r + negSum bal r := by
  induction bal with
  | nil => simp [sumDeltas, posSum, negSum]
  | cons b rest ih =>
      rw [sumDeltas_cons, posSum_cons, negSum_cons]
      by_cases hr : b.1 = r
      · rcases lt_trichotomy b.2 0 with hs | hs | hs
        · have hnp : ¬(b.1 = r ∧ 0 < b.2) := fun hc => absurd hc.2 (by linarith)
          rw [if_pos hr, if_neg hnp, if_pos ⟨hr, hs⟩, ih]
          ring
        · have hnp : ¬(b.1 = r ∧ 0 < b.2) := fun hc => absurd hc.2 (by linarith)
          have hnn : ¬(b.1 = r ∧ b.2 < 0) := fun hc => absurd hc.2 (by linarith)
          rw [if_pos hr, if_neg hnp, if_neg hnn, ih, hs]
          ring
        · have hnn : ¬(b.1 = r ∧ b.2 < 0) := fun hc => absurd hc.2 (by linarith)
          rw [if_pos hr, if_pos ⟨hr, hs⟩, if_neg hnn, ih]
          ring
      · rw [if_neg hr, if_neg (fun hc => hr hc.1), if_neg (fun hc => hr hc.1)]
        exact ih

/-- A valid table never records a negative balance. -/
theorem balOf_nonneg (t : ResourcesTable) (r : ResourceId) (hv : validTable t) :
    0 ≤ balOf t r := by
  cases h : tblLookup t r with
  | none => simp [balOf, h]
  | some v =>
      have hvp := balOf_pos_of_some t r v hv h
      simp only [balOf, h, Option.getD_some]
      linarith

/-- Balance shift after appending a fresh row. -/
theorem balOf_append_fresh (t : ResourcesTable) (r x : ResourceId)
    (v : AssetValue) (hnone : tblLookup t r = none) :
    balOf (t ++ [(r, v)]) x = balOf t x + if r = x then v else 0 := by
  rw [balOf, tblLookup_append_fresh t r x v hnone]
  by_cases hx : x = r
  · subst hx
    simp [balOf, hnone]
  · simp [hx, balOf, Ne.symm hx]

/-- Balance shift after overwriting a row with its value plus a delta. -/
theorem balOf_set_add (t : ResourcesTable) (r x : ResourceId)
    (w v : AssetValue) (hw : tblLookup t r = some w) :
    balOf (tblSet t r (w + v)) x = balOf t x + if r = x then v else 0 := by
  by_cases hx : x = r
  · subst hx
    simp [balOf, tblLookup_set_self t x (w + v) w hw, hw]
  · simp [balOf, tblLookup_set_other t r x (w + v) hx, Ne.symm hx]

/-- Balance shift after the cleanup trigger erases a row that a delta
drove to zero. -/
theorem balOf_erase_zero (t : ResourcesTable) (r x : ResourceId)
    (w v : AssetValue) (hw : tblLookup t r = some w) (hz : w + v = 0) :
    balOf (tblErase t r) x = balOf t x + if r = x then v else 0 := by
  by_cases hx : x = r
  · subst hx
    have h1 : balOf (tblErase t x) x = 0 := by simp [balOf, tblLookup_erase_self]
    have h2 : balOf t x = w := by simp [balOf, hw]
    rw [h1, h2, if_pos rfl]
    linarith
  · simp [balOf, tblLookup_erase_other t r x hx, Ne.symm hx]

/-- `Except` bind on a success. -/
theorem except_bind_ok {α β : Type} (x : α) (f : α → Except Nat β) :
    (Except.ok x >>= f) = f x := rfl

/-- `Except` bind on an error. -/
theorem except_bind_error {α β : Type} (e : Nat) (f : α → Except Nat β) :
    ((Except.error e : Except Nat α) >>= f) = Except.error e := rfl

/-- Cons unfolding of the deposit loop. -/
theorem depositList_cons (b : ResourceId × AssetValue)
    (bal : List (ResourceId × AssetValue)) (t : ResourcesTable) :
    depositList (b :: bal) t
      = if b.2 ≤ 0 then depositList bal t
        else sqlUpsertAdd t b.1 b.2 >>= fun t1 => depositList bal t1 := rfl

/-- Cons unfolding of the withdraw loop. -/
theorem withdrawList_cons (b : ResourceId × AssetValue)
    (bal : List (ResourceId × AssetValue)) (t : ResourcesTable) :
    withdrawList (b :: bal) t
      = if 0 ≤ b.2 then withdrawList bal t
        else sqlUpdateAdd t b.1 b.2 >>= fun p =>
          if p.2 = 0 then .error SQLITE_CONSTRAINT_CHECK
          else withdrawList bal p.1 := rfl

/-- The deposit loop of `update_balance` never fails on a valid table
and adds exactly the positive deltas of the list to each balance. -/
theorem depositList_ok (bal : List (ResourceId × AssetValue)) (t : ResourcesTable)
    (hv : validTable t) :
    ∃ t1, depositList bal t = .ok t1 ∧ validTable t1 ∧
      ∀ r, balOf t1 r = balOf t r + posSum bal r := by
  induction bal generalizing t with
  | nil => exact ⟨t, rfl, hv, fun r => by simp [posSum]⟩
  | cons b rest ih =>
      by_cases hb : b.2 ≤ 0
      · obtain ⟨t1, h1, h2, h3⟩ := ih t hv
        refine ⟨t1, ?_, h2, fun r => ?_⟩
        · rw [depositList_cons, if_pos hb, h1]
        · rw [h3 r, posSum_cons, if_neg (fun hc => absurd hc.2 (by linarith))]
      · push_neg at hb
        have hble : ¬b.2 ≤ 0 := by linarith
        cases hlk : tblLookup t b.1 with
        | none =>
            have hins : sqlUpsertAdd t b.1 b.2 = .ok (t ++ [(b.1, b.2)]) := by
              simp only [sqlUpsertAdd, hlk]
              rw [if_neg (fun hcon => by linarith)]
            have hv' := validTable_append t b.1 b.2 hv hlk hb
            obtain ⟨t1, h1, h2, h3⟩ := ih _ hv'
            refine ⟨t1, ?_, h2, fun r => ?_⟩
            · rw [depositList_cons, if_neg hble, hins, except_bind_ok, h1]
            · rw [h3 r, balOf_append_fresh t b.1 r b.2 hlk, posSum_cons]
              by_cases hr : b.1 = r
              · rw [if_pos hr, if_pos ⟨hr, hb⟩]
                ring
              · rw [if_neg hr, if_neg (fun hc => hr hc.1)]
                ring
        | some w =>
            have hwpos := balOf_pos_of_some t b.1 w hv hlk
            have hupd : sqlUpsertAdd t b.1 b.2 = .ok (tblSet t b.1 (w + b.2)) := by
              simp only [sqlUpsertAdd, hlk]
              rw [if_neg (fun hcon => by linarith), if_neg (fun hcon => by linarith)]
            have hv' := validTable_set t b.1 (w + b.2) hv (by linarith)
            obtain ⟨t1, h1, h2, h3⟩ := ih _ hv'
            refine ⟨t1, ?_, h2, fun r => ?_⟩
            · rw [depositList_cons, if_neg hble, hupd, except_bind_ok, h1]
            · rw [h3 r, balOf_set_add t b.1 r w b.2 hlk, posSum_cons]
              by_cases hr : b.1 = r
              · rw [if_pos hr, if_pos ⟨hr, hb⟩]
                ring
              · rw [if_neg hr, if_neg (fun hc => hr hc.1)]
                ring

/-- When every key can absorb its negative deltas, the withdraw loop of
`update_balance` succeeds and adds exactly the negative deltas of the
list to each balance. -/
theorem withdrawList_ok (bal : List (ResourceId × AssetValue)) (t : ResourcesTable)
    (hv : validTable t) (hge : ∀ r, 0 ≤ balOf t r + negSum bal r) :
    ∃ t1, withdrawList bal t = .ok t1 ∧ validTable t1 ∧
      ∀ r, balOf t1 r = balOf t r + negSum bal r := by
  induction bal generalizing t with
  | nil => exact ⟨t, rfl, hv, fun r => by simp [negSum]⟩
  | cons b rest ih =>
      by_cases hb : 0 ≤ b.2
      · have hskip : ∀ r, negSum (b :: rest) r = negSum rest r := by
          intro r
          rw [negSum_cons, if_neg (fun hc => absurd hc.2 (by linarith))]
        obtain ⟨t1, h1, h2, h3⟩ := ih t hv (fun r => by rw [← hskip r]; exact hge r)
        refine ⟨t1, ?_, h2, fun r => ?_⟩
        · rw [withdrawList_cons, if_pos hb, h1]
        · rw [h3 r, hskip r]
      · push_neg at hb
        have hble : ¬0 ≤ b.2 := by linarith
        have hkey := hge b.1
        rw [negSum_cons, if_pos ⟨rfl, hb⟩] at hkey
        have hnr := negSum_nonpos rest b.1
        have hwpos : 0 < balOf t b.1 := by linarith
        cases hlk : tblLookup t b.1 with
        | none =>
            exfalso
            have : balOf t b.1 = 0 := by simp [balOf, hlk]
            linarith
        | some w =>
            have hwv : balOf t b.1 = w := by simp [balOf, hlk]
            rw [hwv] at hkey hwpos
            have hge0 : 0 ≤ w + b.2 := by linarith
            have hshift : ∀ t' : ResourcesTable,
                (∀ x, balOf t' x = balOf t x + if b.1 = x then b.2 else 0) →
                validTable t' →
                (∃ t1, withdrawList rest t' = .ok t1 ∧ validTable t1 ∧
                  ∀ r, balOf t1 r = balOf t r + negSum (b :: rest) r) := by
              intro t' hbal hv'
              have hge' : ∀ r, 0 ≤ balOf t' r + negSum rest r := by
                intro r
                rw [hbal r]
                by_cases hr : b.1 = r
                · have := hge r
                  rw [negSum_cons, if_pos ⟨hr, hb⟩] at this
                  rw [if_pos hr]
                  linarith
                · have := hge r
                  rw [negSum_cons, if_neg (fun hc => hr hc.1)] at this
                  rw [if_neg hr]
                  linarith
              obtain ⟨t1, h1, h2, h3⟩ := ih t' hv' hge'
              refine ⟨t1, h1, h2, fun r => ?_⟩
              rw [h3 r, hbal r, negSum_cons]
              by_cases hr : b.1 = r
              · rw [if_pos hr, if_pos ⟨hr, hb⟩]
                ring
              · rw [if_neg hr, if_neg (fun hc => hr hc.1)]
                ring
            by_cases hz : w + b.2 = 0
            · have hupd : sqlUpdateAdd t b.1 b.2 = .ok (tblErase t b.1, 1) := by
                simp only [sqlUpdateAdd, hlk]
                rw [if_neg (fun hcon => by linarith), if_pos hz]
              obtain ⟨t1, h1, h2, h3⟩ := hshift (tblErase t b.1)
                (fun x => balOf_erase_zero t b.1 x w b.2 hlk hz)
                (validTable_erase t b.1 hv)
              refine ⟨t1, ?_, h2, h3⟩
              rw [withdrawList_cons, if_neg hble, hupd, except_bind_ok,
                if_neg (by omega), h1]
            · have hupd : sqlUpdateAdd t b.1 b.2 = .ok (tblSet t b.1 (w + b.2), 1) := by
                simp only [sqlUpdateAdd, hlk]
                rw [if_neg (fun hcon => by linarith), if_neg hz]
              have hgt : 0 < w + b.2 := lt_of_le_of_ne hge0 (Ne.symm hz)
              obtain ⟨t1, h1, h2, h3⟩ := hshift (tblSet t b.1 (w + b.2))
                (fun x => balOf_set_add t b.1 x w b.2 hlk)
                (validTable_set t b.1 (w + b.2) hv hgt)
              refine ⟨t1, ?_, h2, h3⟩
              rw [withdrawList_cons, if_neg hble, hupd, except_bind_ok,
                if_neg (by omega), h1]

/-- When some key cannot absorb its negative deltas, the withdraw loop
of `update_balance` fails with the CHECK-constraint error. -/
theorem withdrawList_err (bal : List (ResourceId × AssetValue)) (t : ResourcesTable)
    (hv : validTable t) (hbad : ∃ r, balOf t r + negSum bal r < 0) :
    withdrawList bal t = .error SQLITE_CONSTRAINT_CHECK := by
  induction bal generalizing t with
  | nil =>
      exfalso
      obtain ⟨r, hr⟩ := hbad
      have h0 : negSum ([] : List (ResourceId × AssetValue)) r = 0 := rfl
      have := balOf_nonneg t r hv
      rw [h0] at hr
      linarith
  | cons b rest ih =>
      by_cases hb : 0 ≤ b.2
      · have hskip : ∀ r, negSum (b :: rest) r = negSum rest r := by
          intro r
          rw [negSum_cons, if_neg (fun hc => absurd hc.2 (by linarith))]
        obtain ⟨r, hr⟩ := hbad
        rw [hskip r] at hr
        rw [withdrawList_cons, if_pos hb]
        exact ih t hv ⟨r, hr⟩
      · push_neg at hb
        have hble : ¬0 ≤ b.2 := by linarith
        cases hlk : tblLookup t b.1 with
        | none =>
            have hupd : sqlUpdateAdd t b.1 b.2 = .ok (t, 0) := by
              simp only [sqlUpdateAdd, hlk]
            rw [withdrawList_cons, if_neg hble, hupd, except_bind_ok, if_pos rfl]
        | some w =>
            have hwpos := balOf_pos_of_some t b.1 w hv hlk
            have hwv : balOf t b.1 = w := by simp [balOf, hlk]
            by_cases hlt : w + b.2 < 0
            · have hupd : sqlUpdateAdd t b.1 b.2
                  = .error SQLITE_CONSTRAINT_CHECK := by
                simp only [sqlUpdateAdd, hlk]
                rw [if_pos hlt]
              rw [withdrawList_cons, if_neg hble, hupd, except_bind_error]
            · push_neg at hlt
              have hshift : ∀ t' : ResourcesTable,
                  (∀ x, balOf t' x = balOf t x + if b.1 = x then b.2 else 0) →
                  (∃ r, balOf t' r + negSum rest r < 0) := by
                intro t' hbal
                obtain ⟨r, hr⟩ := hbad
                refine ⟨r, ?_⟩
                rw [hbal r]
                rw [negSum_cons] at hr
                by_cases hrr : b.1 = r
                · rw [if_pos ⟨hrr, hb⟩] at hr
                  rw [if_pos hrr]
                  linarith
                · rw [if_neg (fun hc => hrr hc.1)] at hr
                  rw [if_neg hrr]
                  linarith
              by_cases hz : w + b.2 = 0
              · have hupd : sqlUpdateAdd t b.1 b.2 = .ok (tblErase t b.1, 1) := by
                  simp only [sqlUpdateAdd, hlk]
                  rw [if_neg (fun hcon => by linarith), if_pos hz]
                rw [withdrawList_cons, if_neg hble, hupd, except_bind_ok,
                  if_neg (by omega)]
                exact ih (tblErase t b.1) (validTable_erase t b.1 hv)
                  (hshift _ (fun x => balOf_erase_zero t b.1 x w b.2 hlk hz))
              · have hupd : sqlUpdateAdd t b.1 b.2 = .ok (tblSet t b.1 (w + b.2), 1) := by
                  simp only [sqlUpdateAdd, hlk]
                  rw [if_neg (fun hcon => by linarith), if_neg hz]
                have hgt : 0 < w + b.2 := lt_of_le_of_ne hlt (Ne.symm hz)
                rw [withdrawList_cons, if_neg hble, hupd, except_bind_ok,
                  if_neg (by omega)]
                exact ih (tblSet t b.1 (w + b.2)) (validTable_set t b.1 (w + b.2) hv hgt)
                  (hshift _ (fun x => balOf_set_add t b.1 x w b.2 hlk))

/-- An overdrawn key makes `update_balance` fail with the CHECK error. -/
theorem update_balance_error_of_overdraft (bal : List (ResourceId × AssetValue))
    (t : ResourcesTable) (hv : validTable t)
    (hbad : ∃ r, balOf t r + sumDeltas bal r < 0) :
    update_balance bal t = .error SQLITE_CONSTRAINT_CHECK := by
  obtain ⟨tD, hD, hvD, hbD⟩ := depositList_ok bal t hv
  have hkey : ∀ r, balOf tD r + negSum bal r = balOf t r + sumDeltas bal r := by
    intro r
    rw [hbD r, sumDeltas_split]
    ring
  obtain ⟨r, hr⟩ := hbad
  have herr := withdrawList_err bal tD hvD ⟨r, by rw [hkey r]; exact hr⟩
  show (depositList bal t >>= fun t1 => withdrawList bal t1) = _
  rw [hD, except_bind_ok, herr]

/-- When every key can absorb its total delta, `update_balance`
succeeds, the result is valid, and every balance moves by exactly the
total delta for its key. -/
theorem update_balance_ok_of_covered (bal : List (ResourceId × AssetValue))
    (t : ResourcesTable) (hv : validTable t)
    (hge : ∀ r, 0 ≤ balOf t r + sumDeltas bal r) :
    ∃ t1, update_balance bal t = .ok t1 ∧ validTable t1 ∧
      ∀ r, balOf t1 r = balOf t r + sumDeltas bal r := by
  obtain ⟨tD, hD, hvD, hbD⟩ := depositList_ok bal t hv
  have hkey : ∀ r, balOf tD r + negSum bal r = balOf t r + sumDeltas bal r := by
    intro r
    rw [hbD r, sumDeltas_split]
    ring
  obtain ⟨t1, hW, hv1, hb1⟩ := withdrawList_ok bal tD hvD
    (fun r => by rw [hkey r]; exact hge r)
  refine ⟨t1, ?_, hv1, fun r => by rw [hb1 r, hkey r]⟩
  show (depositList bal t >>= fun t1 => withdrawList bal t1) = _
  rw [hD, except_bind_ok, hW]

/-- C5: on a valid table, `update_balance` fails with the
CHECK-constraint error exactly when some key's balance plus its total
delta would go negative (a negative delta hitting a missing row or
overdrawing a row); otherwise it succeeds and a subsequent
`fetch({r})` returns the positive running sum for `r`, or omits `r`
entirely when that sum is zero (the cleanup trigger has deleted the
row). -/
theorem update_balance_check_and_sum (bal : List (ResourceId × AssetValue))
    (t : ResourcesTable) (hv : validTable t) :
    ((∃ r, balOf t r + sumDeltas bal r < 0) →
      update_balance bal t = .error SQLITE_CONSTRAINT_CHECK) ∧
    ((∀ r, 0 ≤ balOf t r + sumDeltas bal r) →
      ∃ t1, update_balance bal t = .ok t1 ∧
        ∀ r, resourcesFetch [r] t1 =
          if balOf t r + sumDeltas bal r = 0 then []
          else [(r, balOf t r + sumDeltas bal r)]) := by
  constructor
  · exact update_balance_error_of_overdraft bal t hv
  · intro hge
    obtain ⟨t1, hok, hv1, hb1⟩ := update_balance_ok_of_covered bal t hv hge
    refine ⟨t1, hok, fun r => ?_⟩
    have hfr : resourcesFetch [r] t1
        = match tblLookup t1 r with
          | none => []
          | some v => [(r, v)] := rfl
    rw [hfr, lookup_eq_balOf t1 r hv1, hb1 r]
    by_cases hz : balOf t r + sumDeltas bal r = 0
    · simp [hz]
    · simp [hz]

/-- Witness for the `update_balance` claim: withdrawing from a missing
row fails with the CHECK error, while a deposit-withdraw pair on an
empty table succeeds. -/
theorem update_balance_check_and_sum_witness :
    update_balance [((([1], [2]) : ResourceId), (-1 : AssetValue))] []
      = .error SQLITE_CONSTRAINT_CHECK ∧
    ∃ t1, update_balance [((([1], [2]) : ResourceId), (5 : AssetValue)),
        ((([1], [2]) : ResourceId), (-5 : AssetValue))] [] = .ok t1 := by
  have hv : validTable [] := ⟨List.Pairwise.nil, by simp⟩
  have h1 := update_balance_check_and_sum
    [((([1], [2]) : ResourceId), (-1 : AssetValue))] [] hv
  have h2 := update_balance_check_and_sum
    [((([1], [2]) : ResourceId), (5 : AssetValue)),
     ((([1], [2]) : ResourceId), (-5 : AssetValue))] [] hv
  refine ⟨h1.1 ⟨(([1], [2]) : ResourceId), by decide⟩, ?_⟩
  obtain ⟨t1, hok, _⟩ := h2.2 (by intro r; by_cases hr : (([1], [2]) : ResourceId) = r <;>
    simp [balOf, tblLookup, sumDeltas, List.filter_cons, hr])
  exact ⟨t1, hok⟩

/-- The total delta per key only depends on the multiset of balances. -/
theorem sumDeltas_perm (bal bal' : List (ResourceId × AssetValue))
    (hperm : bal.Perm bal') (r : ResourceId) :
    sumDeltas bal r = sumDeltas bal' r := by
  have hfold : ∀ l : List (ResourceId × AssetValue),
      sumDeltas l r = ((l.filter fun b => b.1 = r).map fun b => b.2).sum := by
    intro l
    induction l with
    | nil => rfl
    | cons b rest ih =>
        rw [sumDeltas_cons]
        by_cases h : b.1 = r <;> simp [List.filter_cons, h, ih]
  rw [hfold, hfold]
  exact List.Perm.sum_eq (List.Perm.map _ (List.Perm.filter _ hperm))

/-- C9: `update_balance` applies every positive delta before any
negative delta, so whether it succeeds does not depend on the relative
order of deposits and withdrawals in the input list (success is
invariant under permuting the list); in particular
`[(r, -1), (r, +1)]` on an empty table succeeds with net effect zero
even though applying the deltas in list order would hit a missing
row. -/
theorem update_balance_order_independent (bal bal' : List (ResourceId × AssetValue))
    (t : ResourcesTable) (hv : validTable t) (hperm : bal.Perm bal') :
    ((∃ t1, update_balance bal t = .ok t1) ↔
      (∃ t1, update_balance bal' t = .ok t1)) ∧
    (∀ r : ResourceId, update_balance [(r, -1), (r, 1)] [] = .ok []) := by
  have hchar : ∀ l : List (ResourceId × AssetValue),
      (∃ t1, update_balance l t = .ok t1) ↔
        ∀ r, 0 ≤ balOf t r + sumDeltas l r := by
    intro l
    constructor
    · rintro ⟨t1, h1⟩
      by_contra hneg
      push_neg at hneg
      obtain ⟨r, hr⟩ := hneg
      have herr := update_balance_error_of_overdraft l t hv ⟨r, hr⟩
      rw [herr] at h1
      cases h1
    · intro hge
      obtain ⟨t1, hok, _, _⟩ := update_balance_ok_of_covered l t hv hge
      exact ⟨t1, hok⟩
  constructor
  · rw [hchar bal, hchar bal']
    refine forall_congr' fun r => ?_
    rw [sumDeltas_perm bal bal' hperm r]
  · intro r
    have hdep : depositList [(r, -1), (r, 1)] [] = .ok [(r, 1)] := by
      rw [depositList_cons, if_pos (show ((r, (-1 : AssetValue))).2 ≤ 0 by norm_num),
        depositList_cons, if_neg (show ¬((r, (1 : AssetValue))).2 ≤ 0 by norm_num)]
      have hup : sqlUpsertAdd [] (r, (1 : AssetValue)).1 (r, (1 : AssetValue)).2
          = .ok [(r, 1)] := by
        simp only [sqlUpsertAdd, tblLookup]
        rw [if_neg (by norm_num)]
        rfl
      rw [hup, except_bind_ok]
      rfl
    have hwith : withdrawList [(r, -1), (r, 1)] [(r, 1)] = .ok [] := by
      rw [withdrawList_cons,
        if_neg (show ¬(0 ≤ ((r, (-1 : AssetValue))).2) by norm_num)]
      have hlk : tblLookup [(r, 1)] r = some 1 := by simp [tblLookup]
      have hupd : sqlUpdateAdd [(r, (1 : AssetValue))] (r, (-1 : AssetValue)).1
          (r, (-1 : AssetValue)).2 = .ok (tblErase [(r, 1)] r, 1) := by
        simp only [sqlUpdateAdd, hlk]
        rw [if_neg (by norm_num), if_pos (by norm_num)]
      rw [hupd, except_bind_ok, if_neg (by omega)]
      have her : tblErase [(r, (1 : AssetValue))] r = [] := by simp [tblErase]
      rw [her, withdrawList_cons,
        if_pos (show 0 ≤ ((r, (1 : AssetValue))).2 by norm_num)]
      rfl
    show (depositList [(r, -1), (r, 1)] [] >>= fun t1 =>
        withdrawList [(r, -1), (r, 1)] t1) = Except.ok []
    rw [hdep, except_bind_ok, hwith]

/-- Witness for the order-independence claim at concrete resource ids. -/
theorem update_balance_order_independent_witness :
    ((∃ t1, update_balance [((([3], [4]) : ResourceId), (1 : AssetValue)),
        ((([3], [4]) : ResourceId), (-1 : AssetValue))] [] = .ok t1) ↔
      (∃ t1, update_balance [((([3], [4]) : ResourceId), (-1 : AssetValue)),
        ((([3], [4]) : ResourceId), (1 : AssetValue))] [] = .ok t1)) ∧
    update_balance [((([5], [6]) : ResourceId), (-1 : AssetValue)),
      ((([5], [6]) : ResourceId), (1 : AssetValue))] [] = .ok [] := by
  have hv : validTable [] := ⟨List.Pairwise.nil, by simp⟩
  have h := update_balance_order_independent
    [((([3], [4]) : ResourceId), (1 : AssetValue)),
     ((([3], [4]) : ResourceId), (-1 : AssetValue))]
    [((([3], [4]) : ResourceId), (-1 : AssetValue)),
     ((([3], [4]) : ResourceId), (1 : AssetValue))]
    [] hv (List.Perm.swap _ _ _)
  exact ⟨h.1, h.2 (([5], [6]) : ResourceId)⟩
